import Mathlib

/-!
# Verification of the arbitrage-bot core against its specification

A shallow embedding of the arbitrage bot's core data structures and
algorithms (order-book ladders, market rules, order validation and
sizing, the path order generator, the cycle enumerator, admission
control, the executor's parallelization, and deposit-edge installation),
together with theorems settling the specification's claims.

Conventions of the embedding:
* Python `Decimal` values are modelled as exact rationals (`ℚ`).
  `Decimal`'s `%` operator is remainder after *truncating* division
  (sign of the dividend), modelled by `qmod` below.
* In-place mutation becomes explicit state passing: methods that mutate
  an `Order` return the updated `Order`.
* `raise ImpossibleOrder` becomes `Except Unit`: `.error ()` is the
  raised exception, `.ok` the normal return.
* The bid/ask heaps are modelled by their entry lists; the Python heap
  keeps its minimum score at index 0 (bids store negated prices), so
  `get_bid_price` / `get_ask_price` return a maximum-price /
  minimum-price entry, which is what `bestBid` / `bestAsk` compute.
-/

/-- Truncation of a rational towards zero, as performed by Python
`Decimal` integer division: truncating division of the numerator by the
(positive) denominator. -/
def qtrunc (x : ℚ) : ℤ := x.num.tdiv x.den

deriving instance DecidableEq for Except

/-- Remainder after truncating division: the semantics of `%` on Python
`Decimal` values (the remainder carries the sign of the dividend). -/
def qmod (a b : ℚ) : ℚ := a - b * (qtrunc (a / b))

/-- Whether an `Except` computation raised. -/
def isError {ε α : Type} : Except ε α → Bool
  | .error _ => true
  | .ok _ => false

/-! ## Order-book ladder (`Market.update_bid_price` / `update_ask_price`,
`get_bid_price` / `get_ask_price`) -/

/-- One `(price, size)` ladder entry: the Python `ScoreItem` with the
price as score (un-negated) and the size as item. -/
structure Entry where
  price : ℚ
  size : ℚ
deriving DecidableEq

/-- The linear scan at the top of `update_bid_price` / `update_ask_price`:
the index of the first entry whose score equals `price`, if any. -/
def findPriceIdx (l : List Entry) (price : ℚ) : Option ℕ :=
  match l with
  | [] => none
  | e :: es => if e.price = price then some 0 else (findPriceIdx es price).map (· + 1)

/-- `Market.update_bid_price` / `update_ask_price`: scan the heap for an
entry whose score equals `price`; if found and `size = 0`, pop it; if
found and `size > 0`, overwrite the size in place; otherwise push a new
entry.  Pops and pushes preserve the heap's multiset of entries, which
is what this list models. -/
def ladderUpdate (l : List Entry) (price size : ℚ) : List Entry :=
  match findPriceIdx l price with
  | some i =>
      if size = 0 then l.eraseIdx i
      else if 0 < size then l.set i ⟨price, size⟩
      else l ++ [⟨price, size⟩]
  | none => l ++ [⟨price, size⟩]

/-- `Market.get_bid_price`: `None` on an empty heap, else the root of
the bid heap, an entry of maximal price (bids are stored with negated
scores, so the heap root has the maximal price). -/
def bestBid : List Entry → Option Entry
  | [] => none
  | e :: es => some (es.foldl (fun acc x => if acc.price < x.price then x else acc) e)

/-- `Market.get_ask_price`: `None` on an empty heap, else the root of
the ask heap, an entry of minimal price. -/
def bestAsk : List Entry → Option Entry
  | [] => none
  | e :: es => some (es.foldl (fun acc x => if x.price < acc.price then x else acc) e)

/-! ## Rules, markets and orders (`SizeRule`, `ValueRule`, `Market`, `Order`) -/

/-- Order side (`OrderSide.BUY` / `OrderSide.SELL`). -/
inductive OrderSide where
  | BUY
  | SELL
deriving DecidableEq

/-- A market rule: `SizeRule(minimum, maximum, step)` or
`ValueRule(min_value)`. -/
inductive MarketRule where
  | size (minimum maximum step : ℚ)
  | value (minValue : ℚ)
deriving DecidableEq

/-- The fields of a `Market` that orders and the path generator read:
taker fee, deposit flag, rule list and the two ladders.  A deposit
market is constructed with zero fees, no rules, and 1:1 bid/ask entries
of effectively unbounded size. -/
structure Market where
  takerFee : ℚ
  deposit : Bool
  rules : List MarketRule
  bids : List Entry
  asks : List Entry
deriving DecidableEq

/-- An `Order`: price, quantity, side, market, `maximum_amount` and
`minimum_amount`.  The lazily generated id and the sequence id play no
role in the claims and are omitted. -/
structure Order where
  price : ℚ
  quantity : ℚ
  side : OrderSide
  market : Market
  maximum : ℚ
  minimum : ℚ
deriving DecidableEq

/-- `SizeRule.make_valid` / `ValueRule.make_valid`: coerce the order's
quantity, reporting whether a change was made, or raise
`ImpossibleOrder`.  For `SizeRule`, after the two impossibility checks
the quantity is clamped to the rule's minimum and maximum in turn
(`q2`), and then, when the clamped quantity is not a multiple of a
non-zero step, the code tries `q2 - (q2 % step)` and then
`q2 + (q2 % step)` against the order's own minimum/maximum bounds.
For `ValueRule`, a quantity below `min_value / price` in notional value
is raised to exactly that quotient, and the rule reports no change. -/
def MarketRule.makeValid (r : MarketRule) (o : Order) : Except Unit (Order × Bool) :=
  match r with
  | .size mn mx st =>
      if mn > 0 ∧ mn > o.maximum then .error ()
      else if (mx > 0 ∧ mx < o.minimum) ∨ o.maximum < o.minimum then .error ()
      else
        let q1 := if mn > 0 ∧ mn > o.quantity then mn else o.quantity
        let c1 := decide (mn > 0 ∧ mn > o.quantity)
        let q2 := if mx > 0 ∧ mx < q1 then mx else q1
        let c2 := c1 || decide (mx > 0 ∧ mx < q1)
        if st ≠ 0 ∧ qmod q2 st ≠ 0 then
          let firstOption := q2 - qmod q2 st
          if firstOption ≥ o.minimum ∧ firstOption < o.maximum then
            .ok ({ o with quantity := firstOption }, true)
          else
            let secondOption := q2 + qmod q2 st
            if secondOption ≥ o.minimum ∧ secondOption < o.maximum then
              .ok ({ o with quantity := secondOption }, true)
            else .error ()
        else .ok ({ o with quantity := q2 }, c2)
  | .value mv =>
      if o.price * o.quantity < mv then
        let minSize := mv / o.price
        if minSize > o.maximum then .error ()
        else .ok ({ o with quantity := minSize }, false)
      else .ok (o, false)

/-- One pass of `Order.make_valid`'s inner `for` loop over the market's
rules, threading `changes = (rule.make_valid(self)) or changes`. -/
def runRules : List MarketRule → Order → Bool → Except Unit (Order × Bool)
  | [], o, changes => .ok (o, changes)
  | r :: rest, o, changes =>
    match r.makeValid o with
    | .error e => .error e
    | .ok (o', ch) => runRules rest o' (ch || changes)

/-- `Order.make_valid`'s `while changes and iterations < MAX` loop with
`MAX = 100`.  `fuel` is the number of loop iterations still permitted
(initially 100), so the loop has performed `100 - fuel` iterations; the
returned number is the total number of iterations performed.  After the
loop, `ImpossibleOrder` is raised exactly when `iterations >= MAX`,
i.e. when the fuel ran out. -/
def makeValidGo (rules : List MarketRule) : Bool → ℕ → Order → Except Unit (Order × ℕ)
  | false, fuel, o => if fuel = 0 then .error () else .ok (o, 100 - fuel)
  | true, 0, _ => .error ()
  | true, fuel + 1, o =>
    match runRules rules o false with
    | .error e => .error e
    | .ok (o', ch) => makeValidGo rules ch fuel o'

/-- `Order.make_valid`: iterate every market rule until a full pass
reports no change, or raise `ImpossibleOrder` after 100 iterations.
Returns the coerced order and the number of passes performed. -/
def Order.makeValid (o : Order) : Except Unit (Order × ℕ) :=
  makeValidGo o.market.rules true 100 o

/-- `Order.get_target_amount`: the amount of target currency obtained,
optionally net of the taker fee. -/
def Order.getTargetAmount (o : Order) (includeFees : Bool) : ℚ :=
  match o.side with
  | .BUY => if includeFees then o.quantity * (1 - o.market.takerFee) else o.quantity
  | .SELL =>
      if includeFees then o.quantity * o.price * (1 - o.market.takerFee)
      else o.quantity * o.price

/-- `Order.get_source_amount`: the amount of source currency consumed. -/
def Order.getSourceAmount (o : Order) : ℚ :=
  match o.side with
  | .BUY => o.quantity * o.price
  | .SELL => o.quantity

/-- `Order.set_size` (defined twice in the source with identical body;
the later definition wins): a plain quantity setter. -/
def Order.setSize (o : Order) (size : ℚ) : Order := { o with quantity := size }

/-- `Order.is_deposit`: whether the order's market is a deposit edge. -/
def Order.isDeposit (o : Order) : Bool := o.market.deposit

/-- The `new_size` computed by `Order.set_target_amount`:
`amount / multiplier` for BUY, `amount / (price * multiplier)` for SELL,
with `multiplier = 1 - taker_fee` when fees are included and 1
otherwise. -/
def staNewSize (o : Order) (amount : ℚ) (includeFees : Bool) : ℚ :=
  let multiplier := if includeFees then 1 - o.market.takerFee else 1
  match o.side with
  | .BUY => amount / multiplier
  | .SELL => amount / (o.price * multiplier)

/-- The order passed to the re-run of `make_valid` inside
`set_target_amount`: both the quantity and `minimum_amount` set to
`new_size`. -/
def staResized (o : Order) (amount : ℚ) (includeFees : Bool) : Order :=
  { o with quantity := staNewSize o amount includeFees, minimum := staNewSize o amount includeFees }

/-- `Order.set_target_amount(amount, include_fees)`: raise for a SELL at
zero price; compute `new_size`; raise when it exceeds `maximum_amount`;
otherwise set both the quantity and `minimum_amount` to `new_size` and
re-run `make_valid`. -/
def Order.setTargetAmount (o : Order) (amount : ℚ) (includeFees : Bool) : Except Unit Order :=
  if o.side = .SELL ∧ o.price = 0 then .error ()
  else
    if staNewSize o amount includeFees > o.maximum then .error ()
    else
      match (staResized o amount includeFees).makeValid with
      | .error e => .error e
      | .ok (o', _) => .ok o'

/-! ## Path order generator (`Path.generate_orders`) -/

/-- One leg of a `Path`: the future-order structure `{side, market}`
built by `Path.add_currency` from consecutive vertices. -/
structure Leg where
  side : OrderSide
  market : Market

/-- The reduce branch's reverse walk over the previously emitted orders
(`for i in reversed(range(0, len(orders)))`): each prior order is
shallow-copied and re-sized to `amt` — via `set_size` for deposits and
`set_target_amount(·, include_fees = true)` for trading orders — and
prepended to the accumulator.  `olds` is the emitted prefix in reverse
order; `amt` stays fixed during the walk because the Python expression
`orders[0].get_source_amount()` reads the old order list, which the loop
never mutates. -/
def reviseGo : List Order → ℚ → List Order → Except Unit (List Order)
  | [], _, tmp => .ok tmp
  | o :: earlier, amt, tmp =>
    if o.isDeposit then reviseGo earlier amt (o.setSize amt :: tmp)
    else
      match o.setTargetAmount amt true with
      | .error e => .error e
      | .ok oc => reviseGo earlier amt (oc :: tmp)

/-- The main loop of `Path.generate_orders`, walking the legs while
holding `current_amount`: read the top of book (ASK for BUY, BID for
SELL; `None` aborts), compute the desired quantity, clamp it to the
top-of-book size setting `reduce`, build the order with
`maximum_amount = quantity`, run `make_valid` (`ImpossibleOrder`
aborts), then either append it or — when `reduce` — rebuild the prefix
with `reviseGo`, seeding the walk with `orders[0].get_source_amount()`
(when the prefix is empty the seed is never read; `headD` supplies the
current order as a dummy).  `current_amount` becomes the order's
post-fee target amount. -/
def generateOrdersGo : List Leg → List Order → ℚ → Option (List Order)
  | [], orders, _ => some orders
  | leg :: rest, orders, currentAmount =>
    match (if leg.side = .BUY then bestAsk leg.market.asks else bestBid leg.market.bids) with
    | none => none
    | some top =>
      let price := top.price
      let desired := if leg.side = .BUY then currentAmount / price else currentAmount
      let reduce : Bool := top.size < desired
      let quantity := if top.size < desired then top.size else desired
      let order : Order :=
        { price := price, quantity := quantity, side := leg.side, market := leg.market,
          maximum := quantity, minimum := 0 }
      match order.makeValid with
      | .error _ => none
      | .ok (order, _) =>
        if reduce then
          match reviseGo orders.reverse ((orders.headD order).getSourceAmount) [order] with
          | .error _ => none
          | .ok newOrders => generateOrdersGo rest newOrders (order.getTargetAmount true)
        else generateOrdersGo rest (orders ++ [order]) (order.getTargetAmount true)

/-- `Path.generate_orders(initial_amount)`: the order list realizing the
path's legs with the given starting amount, or `None`. -/
def generateOrders (legs : List Leg) (initialAmount : ℚ) : Option (List Order) :=
  generateOrdersGo legs [] initialAmount

/-! ## Scanner admission control (`App.arbitrage_worker`,
`App.on_order_update`) -/

/-- The admission configuration read from the settings file:
`multipleSequences`, `maximumSequences`, `timeBetweenSequences`. -/
structure AdmissionConfig where
  multipleSequences : Bool
  maximumSequences : ℤ
  timeBetweenSequences : ℚ

/-- The `can_scan` test of `App.arbitrage_worker`. -/
def canScan (cfg : AdmissionConfig) (currentSequences : ℤ) (now lastStarted : ℚ) : Bool :=
  ((!cfg.multipleSequences) && (currentSequences == 0)) ||
  (cfg.multipleSequences && decide (now - lastStarted > cfg.timeBetweenSequences) &&
    ((cfg.maximumSequences == 0) || decide (currentSequences < cfg.maximumSequences)))

/-- Admission state: `currentSequences` and `lastSequenceStarted`. -/
structure AdmState where
  currentSequences : ℤ
  lastSequenceStarted : ℚ

/-- One interleaved step of the system: either the single scanner thread
processes a scan request at wall time `now` (`ok` says whether the
sequence setup ran to completion — on an exception the counter is not
incremented), or an order-completion callback brings some sequence's
remaining-leg count to zero and decrements the counter.  Callbacks that
do not finish a sequence leave `currentSequences` untouched and are not
steps of this relation. -/
inductive AdmStep where
  | scan (now : ℚ) (ok : Bool)
  | complete

/-- The effect of a step on the admission state: a scan increments
`currentSequences` (and updates `lastSequenceStarted`) only when
`can_scan` held and the setup succeeded; a finished sequence decrements
`currentSequences`. -/
def admStep (cfg : AdmissionConfig) (s : AdmState) : AdmStep → AdmState
  | .scan now ok =>
      if canScan cfg s.currentSequences now s.lastSequenceStarted && ok then
        { currentSequences := s.currentSequences + 1, lastSequenceStarted := now }
      else s
  | .complete => { s with currentSequences := s.currentSequences - 1 }

/-- Running a list of steps from the initial state
(`currentSequences = 0`, `lastSequenceStarted = 0`). -/
def admRun (cfg : AdmissionConfig) (steps : List AdmStep) : AdmState :=
  steps.foldl (admStep cfg) { currentSequences := 0, lastSequenceStarted := 0 }

/-! ## Executor parallelization (`App.parallelize_orders`) -/

/-- Phase 1 of `parallelize_orders` (the nested `while` loops): collect
maximal runs of non-deposit orders; on reaching a deposit (or the end of
the input) close the current run, and step `i` *past* the deposit
without storing it anywhere.  The final close happens only when the
outer loop body was entered, hence the extra case on `rest`.
Polymorphic in the order representation: the code consults only
`is_deposit` and, in phase 2, `can_be_executed`. -/
def splitDepositsGo {α : Type} (isDep : α → Bool) : List α → List α → List (List α)
  | [], tmp => [tmp]
  | o :: rest, tmp =>
    if isDep o then
      match rest with
      | [] => [tmp]
      | _ :: _ => tmp :: splitDepositsGo isDep rest []
    else splitDepositsGo isDep rest (tmp ++ [o])

/-- Phase 1 wrapper: the outer `while i < len(orders)` loop never runs
on an empty input, so no chain (not even an empty one) is produced. -/
def splitDeposits {α : Type} (isDep : α → Bool) : List α → List (List α)
  | [] => []
  | o :: rest => splitDepositsGo isDep (o :: rest) []

/-- Phase 2 of `parallelize_orders` (the `for` loops): inside each
chain, every order with `can_be_executed()` closes the current run (when
non-empty) and starts a new one; the trailing run is always appended,
even when empty. -/
def splitExecGo {α : Type} (canExec : α → Bool) : List α → List α → List (List α)
  | [], tmp => [tmp]
  | o :: rest, tmp =>
    if canExec o then
      match tmp with
      | [] => splitExecGo canExec rest [o]
      | _ :: _ => tmp :: splitExecGo canExec rest [o]
    else splitExecGo canExec rest (tmp ++ [o])

/-- `App.parallelize_orders`: phase 1, then phase 2 over each chain,
concatenating the per-chain results in order. -/
def parallelizeOrders {α : Type} (isDep canExec : α → Bool) (orders : List α) : List (List α) :=
  (splitDeposits isDep orders).flatMap (fun chain => splitExecGo canExec chain [])

/-! ## Deposit edges (`Exchange.add_deposit`,
`ExchangeCurrency.add_neighbour_currency`) -/

/-- A vertex identity: a currency code on an exchange.  The Python
vertices compare by object identity, and exactly one `ExchangeCurrency`
exists per `(exchange, code)` pair, so the pair is a faithful
identity. -/
structure VId where
  exchange : ℕ
  code : ℕ
deriving DecidableEq

/-- One entry of a vertex's `_edges` dictionary: keyed by the target's
currency code, holding the target vertex and the deposit flag of the
connecting market (the only part of the market the claim inspects). -/
structure AdjEdge where
  targetCode : ℕ
  target : VId
  isDeposit : Bool
deriving DecidableEq

/-- The `_edges` dictionaries of all vertices, as an association list. -/
abbrev AdjMap := List (VId × List AdjEdge)

/-- The `_edges` dictionary of a vertex (empty when the vertex has no
entry yet). -/
def lookupEdges : AdjMap → VId → List AdjEdge
  | [], _ => []
  | (u, es) :: rest, v => if u = v then es else lookupEdges rest v

/-- The membership test `currency.get_code() not in self._edges`
(negated). -/
def hasEdge (g : AdjMap) (v : VId) (code : ℕ) : Bool :=
  (lookupEdges g v).any (fun e => e.targetCode == code)

/-- `ExchangeCurrency.get_market(code)`: the edge stored under a
currency code, if any. -/
def findEdge (g : AdjMap) (v : VId) (code : ℕ) : Option AdjEdge :=
  (lookupEdges g v).find? (fun e => e.targetCode == code)

/-- Store one more edge in a vertex's `_edges` dictionary. -/
def insertEdge : AdjMap → VId → AdjEdge → AdjMap
  | [], v, e => [(v, [e])]
  | (u, es) :: rest, v, e =>
      if u = v then (u, es ++ [e]) :: rest else (u, es) :: insertEdge rest v e

/-- `ExchangeCurrency.add_neighbour_currency(currency, market)` with its
mutual back-insertion (`currency.add_neighbour_currency(self, market)`),
fuelled: the Python recursion terminates after at most three calls, the
third finding the edge already present.  If the target's code is
already a key of the vertex's `_edges`, nothing happens; otherwise the
edge is stored and the same market is registered on the target vertex in
the opposite direction. -/
def addNeighbourFuel (dep : Bool) : ℕ → AdjMap → VId → VId → AdjMap
  | 0, g, _, _ => g
  | fuel + 1, g, v, t =>
    if hasEdge g v t.code then g
    else addNeighbourFuel dep fuel (insertEdge g v ⟨t.code, t, dep⟩) t v

/-- `add_neighbour_currency` as called from the outside. -/
def addNeighbour (g : AdjMap) (v t : VId) (dep : Bool) : AdjMap :=
  addNeighbourFuel dep 3 g v t

/-- `Exchange.add_deposit(currency, exchange)`: create a fresh deposit
market from this exchange's vertex for the currency to the target
exchange's vertex (the 1:1 ladder seeding and zero fees are irrelevant
to adjacency) and register it via `add_neighbour_currency` on the origin
vertex. -/
def addDeposit (g : AdjMap) (sourceExchange targetExchange code : ℕ) : AdjMap :=
  addNeighbour g ⟨sourceExchange, code⟩ ⟨targetExchange, code⟩ true

/-! ## Cycle enumeration (`generate_all_paths`) -/

/-- One outgoing edge of the market graph as the enumerator sees it: the
neighbouring vertex and the deposit flag of the connecting market. -/
structure PEdge where
  target : VId
  isDeposit : Bool
deriving DecidableEq

/-- The adjacency of the already-built market graph (the `_edges`
dictionaries: one edge per neighbouring currency code). -/
structure PGraph where
  adj : VId → List PEdge

/-- The recursive `helper` of `generate_all_paths`, with the depth
bookkeeping replaced by the remaining fuel `max_depth + 1 - depth`: the
entry guard `depth > max_depth` is exactly `fuel = 0`, and the initial
call (`depth = 1`) has `fuel = max_depth`.  At entry, a path of length
> 1 whose current vertex has the start's currency *code* is recorded and
the branch stops; otherwise every neighbour is visited except a deposit
edge out of a one-element path (the forbidden first move) and vertices
already visited other than `current_path[0]`. -/
def pathsGo (g : PGraph) (S : VId) : ℕ → VId → List VId → List (List VId)
  | 0, _, _ => []
  | fuel + 1, cur, path =>
    if 1 < path.length ∧ S.code = cur.code then [path]
    else
      (g.adj cur).flatMap (fun e =>
        if path.length = 1 ∧ e.isDeposit then []
        else if e.target ∈ path ∧ path.head? ≠ some e.target then []
        else pathsGo g S fuel e.target (path ++ [e.target]))

/-- `generate_all_paths(start_currency, max_depth)`: every vertex list
recorded by the depth-bounded DFS from the start vertex. -/
def generateAllPaths (g : PGraph) (S : VId) (maxDepth : ℕ) : List (List VId) :=
  pathsGo g S maxDepth S [S]

/-- Whether consecutive vertices of `u :: vs` are joined by graph edges;
when `firstNoDep`, the first edge must additionally not be a deposit
(the enumerator's "no deposit as the first move" rule). -/
def chainAdjB (g : PGraph) : Bool → VId → List VId → Bool
  | _, _, [] => true
  | firstNoDep, u, v :: vs =>
      (g.adj u).any (fun e => e.target == v && (!firstNoDep || !e.isDeposit)) &&
        chainAdjB g false v vs

/-- A concrete one-exchange triangle `A-B-C` of ordinary (non-deposit)
markets, every edge in both directions, for evaluating the
enumerator. -/
def triGraph : PGraph :=
  ⟨fun v =>
    if v = ⟨0, 0⟩ then [⟨⟨0, 1⟩, false⟩, ⟨⟨0, 2⟩, false⟩]
    else if v = ⟨0, 1⟩ then [⟨⟨0, 0⟩, false⟩, ⟨⟨0, 2⟩, false⟩]
    else if v = ⟨0, 2⟩ then [⟨⟨0, 0⟩, false⟩, ⟨⟨0, 1⟩, false⟩]
    else []⟩

lemma mem_set_self : ∀ (l : List Entry) (i : ℕ) (a : Entry), i < l.length → a ∈ l.set i a := by
  intro l
  induction l with
  | nil => intro i a h; simp at h
  | cons x xs ih =>
    intro i a h
    cases i with
    | zero => simp
    | succ j =>
      simp only [List.set_cons_succ, List.mem_cons]
      exact Or.inr (ih j a (by simpa using h))

lemma findPriceIdx_lt_length : ∀ (l : List Entry) (price : ℚ) (i : ℕ),
    findPriceIdx l price = some i → i < l.length := by
  intro l
  induction l with
  | nil => intro _ _ h; simp [findPriceIdx] at h
  | cons x xs ih =>
    intro price i h
    simp only [findPriceIdx] at h
    by_cases hx : x.price = price
    · rw [if_pos hx] at h
      obtain rfl : (0 : ℕ) = i := by simpa using h
      simp
    · rw [if_neg hx, Option.map_eq_some'] at h
      obtain ⟨j, hj, rfl⟩ := h
      have := ih price j hj
      simp only [List.length_cons]
      omega

lemma eraseIdx_price_ne (price : ℚ) : ∀ (l : List Entry) (i : ℕ),
    (l.map Entry.price).Nodup → findPriceIdx l price = some i →
    ∀ e ∈ l.eraseIdx i, e.price ≠ price := by
  intro l
  induction l with
  | nil => intro i _ h; simp [findPriceIdx] at h
  | cons x xs ih =>
    intro i hnd hfind e he
    simp only [findPriceIdx] at hfind
    rw [List.map_cons, List.nodup_cons] at hnd
    have hnd' : x.price ∉ xs.map Entry.price ∧ (xs.map Entry.price).Nodup := hnd
    by_cases hx : x.price = price
    · rw [if_pos hx] at hfind
      obtain rfl : (0 : ℕ) = i := by simpa using hfind
      simp only [List.eraseIdx_cons_zero] at he
      intro hep
      exact hnd'.1 (hx ▸ hep ▸ List.mem_map_of_mem Entry.price he)
    · rw [if_neg hx, Option.map_eq_some'] at hfind
      obtain ⟨j, hj, rfl⟩ := hfind
      simp only [List.eraseIdx_cons_succ, List.mem_cons] at he
      rcases he with rfl | he
      · exact hx
      · exact ih j hnd'.2 hj e he

lemma bestBidFold : ∀ (es : List Entry) (e : Entry),
    (es.foldl (fun acc x => if acc.price < x.price then x else acc) e) ∈ e :: es ∧
    e.price ≤ (es.foldl (fun acc x => if acc.price < x.price then x else acc) e).price ∧
    ∀ x ∈ es, x.price ≤ (es.foldl (fun acc x => if acc.price < x.price then x else acc) e).price := by
  intro es
  induction es with
  | nil => intro e; refine ⟨by simp, le_refl _, by simp⟩
  | cons y ys ih =>
    intro e
    simp only [List.foldl_cons]
    obtain ⟨hmem, hle, hall⟩ := ih (if e.price < y.price then y else e)
    refine ⟨?_, ?_, ?_⟩
    · rcases List.mem_cons.mp hmem with h | h
      · rw [h]
        by_cases hc : e.price < y.price
        · simp [hc]
        · simp [hc]
      · simp [List.mem_cons, h]
    · refine le_trans ?_ hle
      by_cases hc : e.price < y.price
      · rw [if_pos hc]; exact le_of_lt hc
      · rw [if_neg hc]
    · intro x hx
      rcases List.mem_cons.mp hx with rfl | hx
      · refine le_trans ?_ hle
        by_cases hc : e.price < x.price
        · rw [if_pos hc]
        · rw [if_neg hc]; exact le_of_not_lt hc
      · exact hall x hx

lemma bestAskFold : ∀ (es : List Entry) (e : Entry),
    (es.foldl (fun acc x => if x.price < acc.price then x else acc) e) ∈ e :: es ∧
    (es.foldl (fun acc x => if x.price < acc.price then x else acc) e).price ≤ e.price ∧
    ∀ x ∈ es, (es.foldl (fun acc x => if x.price < acc.price then x else acc) e).price ≤ x.price := by
  intro es
  induction es with
  | nil => intro e; refine ⟨by simp, le_refl _, by simp⟩
  | cons y ys ih =>
    intro e
    simp only [List.foldl_cons]
    obtain ⟨hmem, hle, hall⟩ := ih (if y.price < e.price then y else e)
    refine ⟨?_, ?_, ?_⟩
    · rcases List.mem_cons.mp hmem with h | h
      · rw [h]
        by_cases hc : y.price < e.price
        · simp [hc]
        · simp [hc]
      · simp [List.mem_cons, h]
    · refine le_trans hle ?_
      by_cases hc : y.price < e.price
      · rw [if_pos hc]; exact le_of_lt hc
      · rw [if_neg hc]
    · intro x hx
      rcases List.mem_cons.mp hx with rfl | hx
      · refine le_trans hle ?_
        by_cases hc : x.price < e.price
        · rw [if_pos hc]
        · rw [if_neg hc]; exact le_of_not_lt hc
      · exact hall x hx

lemma findPriceIdx_isSome : ∀ (l : List Entry) (price : ℚ),
    (∃ e ∈ l, e.price = price) → ∃ i, findPriceIdx l price = some i := by
  intro l
  induction l with
  | nil => intro price h; simp at h
  | cons x xs ih =>
    intro price h
    simp only [findPriceIdx]
    by_cases hx : x.price = price
    · exact ⟨0, by rw [if_pos hx]⟩
    · obtain ⟨e, he, hep⟩ := h
      rcases List.mem_cons.mp he with rfl | he
      · exact absurd hep hx
      · obtain ⟨i, hi⟩ := ih price ⟨e, he, hep⟩
        exact ⟨i + 1, by rw [if_neg hx, hi]; rfl⟩

/-- C4 (amended): for every ladder and both sides: after `update(price, size)`
with `size = 0` on a ladder that contains an entry at that price (prices
pairwise distinct), no entry at that price remains; after `update(price, size)`
with `size > 0`, an entry with exactly that price and size is present;
`best_bid()` returns a maximum-price entry, `best_ask()` a minimum-price
entry, and each returns none exactly on an empty ladder.  (The original
claim's unconditional removal clause fails when no entry at the price
exists: the update then inserts a zero-size entry.) -/
theorem market_ladder_spec (l : List Entry) (price size : ℚ) :
    ((l.map Entry.price).Nodup → (∃ e ∈ l, e.price = price) →
      ∀ e ∈ ladderUpdate l price 0, e.price ≠ price) ∧
    (0 < size → (⟨price, size⟩ : Entry) ∈ ladderUpdate l price size) ∧
    (bestBid l = none ↔ l = []) ∧
    (bestAsk l = none ↔ l = []) ∧
    (∀ b, bestBid l = some b → b ∈ l ∧ ∀ e ∈ l, e.price ≤ b.price) ∧
    (∀ a, bestAsk l = some a → a ∈ l ∧ ∀ e ∈ l, a.price ≤ e.price) := by
  refine ⟨?_, ?_, ?_, ?_, ?_, ?_⟩
  · intro hnd hex e he
    obtain ⟨i, hi⟩ := findPriceIdx_isSome l price hex
    unfold ladderUpdate at he
    rw [hi] at he
    simp only [if_pos rfl] at he
    exact eraseIdx_price_ne price l i hnd hi e he
  · intro hsz
    unfold ladderUpdate
    cases hfi : findPriceIdx l price with
    | some i =>
        dsimp only
        rw [if_neg (ne_of_gt hsz), if_pos hsz]
        exact mem_set_self l i _ (findPriceIdx_lt_length l price i hfi)
    | none => simp
  · cases l with
    | nil => simp [bestBid]
    | cons e es => simp [bestBid]
  · cases l with
    | nil => simp [bestAsk]
    | cons e es => simp [bestAsk]
  · intro b hb
    cases l with
    | nil => simp [bestBid] at hb
    | cons e es =>
      obtain ⟨hmem, hle, hall⟩ := bestBidFold es e
      simp only [bestBid, Option.some_inj] at hb
      subst hb
      refine ⟨hmem, ?_⟩
      intro x hx
      rcases List.mem_cons.mp hx with rfl | hx
      · exact hle
      · exact hall x hx
  · intro a ha
    cases l with
    | nil => simp [bestAsk] at ha
    | cons e es =>
      obtain ⟨hmem, hle, hall⟩ := bestAskFold es e
      simp only [bestAsk, Option.some_inj] at ha
      subst ha
      refine ⟨hmem, ?_⟩
      intro x hx
      rcases List.mem_cons.mp hx with rfl | hx
      · exact hle
      · exact hall x hx

/-- C4 witness: the amended ladder specification evaluated on the
concrete ladder `[(2, 5), (3, 4)]`. -/
theorem market_ladder_spec_witness :
    (∀ e ∈ ladderUpdate [⟨2, 5⟩, ⟨3, 4⟩] (2 : ℚ) 0, e.price ≠ 2) ∧
    (⟨3, 7⟩ : Entry) ∈ ladderUpdate [⟨2, 5⟩, ⟨3, 4⟩] (3 : ℚ) 7 :=
  ⟨(market_ladder_spec [⟨2, 5⟩, ⟨3, 4⟩] 2 0).1 (by decide) (by decide),
   (market_ladder_spec [⟨2, 5⟩, ⟨3, 4⟩] 3 7).2.1 (by decide)⟩

/-- C4 counterexample: updating an empty ladder at price 1 with size 0
leaves an entry at price 1 present (the code pushes a zero-size entry
when no entry at that price exists), refuting the claim's unconditional
"after update with size = 0, no entry at that price is present". -/
theorem ladder_update_zero_cex :
    ¬ (∀ e ∈ ladderUpdate [] (1 : ℚ) 0, e.price ≠ 1) := by decide

/-- C10: for every order whose market has an empty rule list — in
particular every order on a deposit market, which is built with no
rules — `make_valid` terminates after a single pass, never raises
`ImpossibleOrder`, and leaves every field of the order unchanged. -/
theorem make_valid_no_rules (o : Order) (h : o.market.rules = []) :
    o.makeValid = .ok (o, 1) := by
  unfold Order.makeValid
  rw [h]
  rfl

/-- C10 witness: `make_valid` on a concrete order on a deposit market
(zero fees, no rules, 1:1 ladders) returns the order unchanged after
one pass. -/
theorem make_valid_no_rules_witness :
    ({ price := 1, quantity := 3, side := .SELL,
       market := { takerFee := 0, deposit := true, rules := [],
                   bids := [⟨1, 9999999⟩], asks := [⟨1, 9999999⟩] },
       maximum := 3, minimum := 0 } : Order).makeValid =
      .ok ({ price := 1, quantity := 3, side := .SELL,
             market := { takerFee := 0, deposit := true, rules := [],
                         bids := [⟨1, 9999999⟩], asks := [⟨1, 9999999⟩] },
             maximum := 3, minimum := 0 }, 1) :=
  make_valid_no_rules _ rfl

/-- C3 evidence: on an order with quantity 13, own bounds [12, 25) and a
`SizeRule` with step 10, rounding down gives 10 < 12, so the round-up
branch fires; the code sets the quantity to `13 + (13 % 10) = 16`, which
is *not* a multiple of the step, although the claim's nearest multiple
above, 20, fits the bounds.  This matches the deviation the
specification flags: the code adds the modulus instead of rounding up to
the next step boundary. -/
theorem size_rule_round_up_bug :
    (MarketRule.size 0 0 10).makeValid
        { price := 1, quantity := 13, side := .BUY,
          market := { takerFee := 0, deposit := false, rules := [], bids := [], asks := [] },
          maximum := 25, minimum := 12 } =
      .ok ({ price := 1, quantity := 16, side := .BUY,
             market := { takerFee := 0, deposit := false, rules := [], bids := [], asks := [] },
             maximum := 25, minimum := 12 }, true) ∧
    qmod 16 10 ≠ 0 ∧ qmod 20 10 = 0 ∧ (12 : ℚ) ≤ 20 ∧ (20 : ℚ) < 25 := by
  refine ⟨?_, ?_, ?_, ?_, ?_⟩ <;> with_unfolding_all decide

/-- C5 evidence: on a market with rules `[SizeRule(0, 0, step 4),
ValueRule(min_value 10)]`, an order with price 1 and quantity 4 passes
`make_valid` in one pass (the `ValueRule` raises the quantity to 10 but
reports no change, ending the loop).  Running `make_valid` a second time
is not a no-op: the `SizeRule` now rounds 10 down to 8, the `ValueRule`
bumps it back to 10, and the loop oscillates until the 100-iteration
bound raises `ImpossibleOrder`. -/
theorem make_valid_not_idempotent :
    ({ price := 1, quantity := 4, side := .BUY,
       market := { takerFee := 0, deposit := false, rules := [.size 0 0 4, .value 10],
                   bids := [], asks := [] },
       maximum := 100, minimum := 0 } : Order).makeValid =
      .ok ({ price := 1, quantity := 10, side := .BUY,
             market := { takerFee := 0, deposit := false, rules := [.size 0 0 4, .value 10],
                         bids := [], asks := [] },
             maximum := 100, minimum := 0 }, 1) ∧
    ({ price := 1, quantity := 10, side := .BUY,
       market := { takerFee := 0, deposit := false, rules := [.size 0 0 4, .value 10],
                   bids := [], asks := [] },
       maximum := 100, minimum := 0 } : Order).makeValid = .error () := by
  refine ⟨?_, ?_⟩ <;> with_unfolding_all decide

lemma ruleMakeValid_fields {r : MarketRule} {o o' : Order} {ch : Bool}
    (h : r.makeValid o = .ok (o', ch)) :
    o'.price = o.price ∧ o'.side = o.side ∧ o'.market = o.market ∧
    o'.maximum = o.maximum ∧ o'.minimum = o.minimum := by
  cases r with
  | size mn mx st =>
    simp only [MarketRule.makeValid] at h
    repeat' split at h
    all_goals
      first
        | (exact Except.noConfusion h)
        | (injection h with h1
           injection h1 with h2 h3
           subst h2
           exact ⟨rfl, rfl, rfl, rfl, rfl⟩)
  | value mv =>
    simp only [MarketRule.makeValid] at h
    repeat' split at h
    all_goals
      first
        | (exact Except.noConfusion h)
        | (injection h with h1
           injection h1 with h2 h3
           subst h2
           exact ⟨rfl, rfl, rfl, rfl, rfl⟩)

lemma minle_step_aux {o o' : Order} {ch c2 : Bool} {q2 st : ℚ}
    (h : (if st ≠ 0 ∧ qmod q2 st ≠ 0 then
            if q2 - qmod q2 st ≥ o.minimum ∧ q2 - qmod q2 st < o.maximum then
              Except.ok ({ o with quantity := q2 - qmod q2 st }, true)
            else
              if q2 + qmod q2 st ≥ o.minimum ∧ q2 + qmod q2 st < o.maximum then
                Except.ok ({ o with quantity := q2 + qmod q2 st }, true)
              else Except.error ()
          else Except.ok ({ o with quantity := q2 }, c2)) = .ok (o', ch))
    (hmin : o.minimum ≤ q2) : o.minimum ≤ o'.quantity := by
  split at h
  · split at h
    next hfirst =>
      injection h with h1
      injection h1 with h2 h3
      subst h2
      exact hfirst.1
    next hfirst =>
      split at h
      next hsecond =>
        injection h with h1
        injection h1 with h2 h3
        subst h2
        exact hsecond.1
      next hsecond => exact Except.noConfusion h
  · injection h with h1
    injection h1 with h2 h3
    subst h2
    exact hmin

lemma ruleMakeValid_min_le {r : MarketRule} {o o' : Order} {ch : Bool}
    (hp : 0 < o.price) (hq : o.minimum ≤ o.quantity)
    (h : r.makeValid o = .ok (o', ch)) :
    o.minimum ≤ o'.quantity := by
  cases r with
  | size mn mx st =>
    simp only [MarketRule.makeValid] at h
    split at h
    next hc1 => exact Except.noConfusion h
    next hc1 =>
      split at h
      next hc2 => exact Except.noConfusion h
      next hc2 =>
        rcases not_or.mp hc2 with ⟨nmx, _⟩
        by_cases hmn : mn > 0 ∧ mn > o.quantity
        · simp only [if_pos hmn] at h
          by_cases hmx : mx > 0 ∧ mx < mn
          · simp only [if_pos hmx] at h
            exact minle_step_aux h (le_of_not_lt (fun hlt => nmx ⟨hmx.1, hlt⟩))
          · simp only [if_neg hmx] at h
            exact minle_step_aux h (le_trans hq (le_of_lt hmn.2))
        · simp only [if_neg hmn] at h
          by_cases hmx : mx > 0 ∧ mx < o.quantity
          · simp only [if_pos hmx] at h
            exact minle_step_aux h (le_of_not_lt (fun hlt => nmx ⟨hmx.1, hlt⟩))
          · simp only [if_neg hmx] at h
            exact minle_step_aux h hq
  | value mv =>
    simp only [MarketRule.makeValid] at h
    split at h
    next hlt =>
      split at h
      next hmax => exact Except.noConfusion h
      next hmax =>
        injection h with h1
        injection h1 with h2 h3
        subst h2
        show o.minimum ≤ mv / o.price
        have hqlt : o.quantity < mv / o.price := by
          rw [lt_div_iff₀ hp, mul_comm]
          exact hlt
        exact le_of_lt (lt_of_le_of_lt hq hqlt)
    next hlt =>
      injection h with h1
      injection h1 with h2 h3
      subst h2
      exact hq

lemma runRules_props : ∀ (rules : List MarketRule) (o : Order) (c : Bool) (o' : Order) (c' : Bool),
    0 < o.price → o.minimum ≤ o.quantity →
    runRules rules o c = .ok (o', c') →
    o'.price = o.price ∧ o'.side = o.side ∧ o'.market = o.market ∧
    o'.maximum = o.maximum ∧ o'.minimum = o.minimum ∧ o.minimum ≤ o'.quantity := by
  intro rules
  induction rules with
  | nil =>
    intro o c o' c' hp hq h
    simp only [runRules] at h
    injection h with h1
    injection h1 with h2 h3
    subst h2
    exact ⟨rfl, rfl, rfl, rfl, rfl, hq⟩
  | cons r rest ih =>
    intro o c o' c' hp hq h
    simp only [runRules] at h
    cases hr : r.makeValid o with
    | error e => rw [hr] at h; exact Except.noConfusion h
    | ok pair =>
      obtain ⟨o1, ch⟩ := pair
      rw [hr] at h
      obtain ⟨f1, f2, f3, f4, f5⟩ := ruleMakeValid_fields hr
      have hmin := ruleMakeValid_min_le hp hq hr
      obtain ⟨g1, g2, g3, g4, g5, g6⟩ :=
        ih o1 (ch || c) o' c' (f1 ▸ hp) (le_trans (le_of_eq f5) hmin) h
      exact ⟨g1.trans f1, g2.trans f2, g3.trans f3, g4.trans f4, g5.trans f5,
        le_trans (le_of_eq f5.symm) g6⟩

lemma makeValidGo_props (rules : List MarketRule) : ∀ (fuel : ℕ) (c : Bool) (o o' : Order) (n : ℕ),
    0 < o.price → o.minimum ≤ o.quantity →
    makeValidGo rules c fuel o = .ok (o', n) →
    o'.price = o.price ∧ o'.side = o.side ∧ o'.market = o.market ∧
    o'.maximum = o.maximum ∧ o'.minimum = o.minimum ∧ o.minimum ≤ o'.quantity := by
  intro fuel
  induction fuel with
  | zero =>
    intro c o o' n hp hq h
    cases c with
    | false => simp [makeValidGo] at h
    | true => exact Except.noConfusion h
  | succ f ih =>
    intro c o o' n hp hq h
    cases c with
    | false =>
      simp only [makeValidGo, Nat.succ_ne_zero, if_neg] at h
      injection h with h1
      injection h1 with h2 h3
      subst h2
      exact ⟨rfl, rfl, rfl, rfl, rfl, hq⟩
    | true =>
      simp only [makeValidGo] at h
      cases hr : runRules rules o false with
      | error e => rw [hr] at h; exact Except.noConfusion h
      | ok pair =>
        obtain ⟨o1, ch⟩ := pair
        rw [hr] at h
        obtain ⟨f1, f2, f3, f4, f5, f6⟩ := runRules_props rules o false o1 ch hp hq hr
        obtain ⟨g1, g2, g3, g4, g5, g6⟩ :=
          ih ch o1 o' n (f1 ▸ hp) (le_trans (le_of_eq f5) f6) h
        exact ⟨g1.trans f1, g2.trans f2, g3.trans f3, g4.trans f4, g5.trans f5,
          le_trans (le_of_eq f5.symm) g6⟩

lemma makeValid_props (o o' : Order) (n : ℕ)
    (hp : 0 < o.price) (hq : o.minimum ≤ o.quantity)
    (h : o.makeValid = .ok (o', n)) :
    o'.price = o.price ∧ o'.side = o.side ∧ o'.market = o.market ∧
    o'.maximum = o.maximum ∧ o'.minimum = o.minimum ∧ o.minimum ≤ o'.quantity :=
  makeValidGo_props o.market.rules 100 true o o' n hp hq h

/-- C9: `set_target_amount(amount, include_fees)` raises `ImpossibleOrder`
exactly when the order is a SELL with zero price, when
`new_size = amount / multiplier` (BUY) or `amount / (price * multiplier)`
(SELL, `multiplier = 1 - taker_fee` if fees are included, else 1) exceeds
the order's `maximum_amount`, or when the re-run of `make_valid` on the
re-sized order raises.  Otherwise it returns exactly the result of
`make_valid` on the order with both quantity and `minimum_amount` set to
`new_size`; for a positive price and a taker fee below 1 the resulting
`minimum_amount` is `new_size` and the post-action target amount (with
the same fee setting) is at least `amount`. -/
theorem set_target_amount_spec (o : Order) (amount : ℚ) (includeFees : Bool) :
    (isError (o.setTargetAmount amount includeFees) = true ↔
      ((o.side = .SELL ∧ o.price = 0) ∨ staNewSize o amount includeFees > o.maximum ∨
        isError ((staResized o amount includeFees).makeValid) = true)) ∧
    (0 < o.price → o.market.takerFee < 1 →
      ∀ o', o.setTargetAmount amount includeFees = .ok o' →
        o'.minimum = staNewSize o amount includeFees ∧
        (∃ n, (staResized o amount includeFees).makeValid = .ok (o', n)) ∧
        amount ≤ o'.getTargetAmount includeFees) := by
  by_cases h1 : o.side = .SELL ∧ o.price = 0
  · constructor
    · simp [Order.setTargetAmount, if_pos h1, isError, h1]
    · intro hp _ o' h
      exact absurd (h1.2 ▸ hp) (lt_irrefl 0)
  · by_cases h2 : staNewSize o amount includeFees > o.maximum
    · constructor
      · simp [Order.setTargetAmount, if_neg h1, if_pos h2, isError, h2]
      · intro hp hf o' h
        simp only [Order.setTargetAmount, if_neg h1, if_pos h2] at h
        exact Except.noConfusion h
    · cases hm : (staResized o amount includeFees).makeValid with
      | error e =>
        constructor
        · simp [Order.setTargetAmount, if_neg h1, if_neg h2, isError, h1, h2, hm]
        · intro hp hf o' h
          simp only [Order.setTargetAmount, if_neg h1, if_neg h2, hm] at h
          exact Except.noConfusion h
      | ok pair =>
        obtain ⟨o1, n⟩ := pair
        constructor
        · simp [Order.setTargetAmount, if_neg h1, if_neg h2, isError, h1, h2, hm]
        · intro hp hf o' h
          simp only [Order.setTargetAmount, if_neg h1, if_neg h2, hm] at h
          injection h with h4
          subst h4
          obtain ⟨f1, f2, f3, f4, f5, f6⟩ :=
            makeValid_props (staResized o amount includeFees) o1 n hp (le_refl _) hm
          have e_price : o1.price = o.price := f1
          have e_side : o1.side = o.side := f2
          have e_market : o1.market = o.market := f3
          have e_min : o1.minimum = staNewSize o amount includeFees := f5
          have e_q : staNewSize o amount includeFees ≤ o1.quantity := f6
          refine ⟨e_min, ⟨n, rfl⟩, ?_⟩
          have hmult : (0:ℚ) < (if includeFees then 1 - o.market.takerFee else 1) := by
            cases includeFees
            · simp
            · rw [if_pos rfl]
              exact sub_pos.mpr hf
          cases hs : o.side with
          | BUY =>
            have hside1 : o1.side = OrderSide.BUY := e_side.trans hs
            have hta : o1.getTargetAmount includeFees =
                o1.quantity * (if includeFees then 1 - o.market.takerFee else 1) := by
              cases includeFees
              · simp [Order.getTargetAmount, hside1]
              · simp [Order.getTargetAmount, hside1, e_market]
            have hns : staNewSize o amount includeFees =
                amount / (if includeFees then 1 - o.market.takerFee else 1) := by
              simp only [staNewSize, hs]
            have hamt : staNewSize o amount includeFees *
                (if includeFees then 1 - o.market.takerFee else 1) = amount := by
              rw [hns]
              exact div_mul_cancel₀ amount (ne_of_gt hmult)
            rw [hta, ← hamt]
            exact mul_le_mul_of_nonneg_right e_q (le_of_lt hmult)
          | SELL =>
            have hside1 : o1.side = OrderSide.SELL := e_side.trans hs
            have hpm : (0:ℚ) < o.price * (if includeFees then 1 - o.market.takerFee else 1) :=
              mul_pos hp hmult
            have hta : o1.getTargetAmount includeFees =
                o1.quantity * (o.price * (if includeFees then 1 - o.market.takerFee else 1)) := by
              cases includeFees
              · simp [Order.getTargetAmount, hside1, e_price]
              · simp [Order.getTargetAmount, hside1, e_price, e_market, mul_assoc]
            have hns : staNewSize o amount includeFees =
                amount / (o.price * (if includeFees then 1 - o.market.takerFee else 1)) := by
              simp only [staNewSize, hs]
            have hamt : staNewSize o amount includeFees *
                (o.price * (if includeFees then 1 - o.market.takerFee else 1)) = amount := by
              rw [hns]
              exact div_mul_cancel₀ amount (ne_of_gt hpm)
            rw [hta, ← hamt]
            exact mul_le_mul_of_nonneg_right e_q (le_of_lt hpm)

/-- C9 witness: a concrete BUY order with price 2, taker fee 1/10 and
`maximum_amount` 50; `set_target_amount(9, include_fees := true)`
computes `new_size = 9 / (9/10) = 10` and succeeds, and the resulting
target amount with fees is at least 9. -/
theorem set_target_amount_spec_witness :
    (9:ℚ) ≤ ({ price := 2, quantity := 10, side := .BUY,
               market := { takerFee := 1/10, deposit := false, rules := [], bids := [], asks := [] },
               maximum := 50, minimum := 10 } : Order).getTargetAmount true := by
  have h := (set_target_amount_spec
      { price := 2, quantity := 5, side := .BUY,
        market := { takerFee := 1/10, deposit := false, rules := [], bids := [], asks := [] },
        maximum := 50, minimum := 0 } 9 true).2
    (by norm_num) (by norm_num)
    { price := 2, quantity := 10, side := .BUY,
      market := { takerFee := 1/10, deposit := false, rules := [], bids := [], asks := [] },
      maximum := 50, minimum := 10 }
    (by with_unfolding_all decide)
  exact h.2.2

/-- C1 evidence: a two-leg path (BUY at ask 1/2 with ample size, then
SELL at bid 1 with top size 50) from 100 units.  The second leg is
reduced to quantity 50, whose source amount is 50; the claim (and the
parallel implementation in `arbitrage_helper`, which re-solves against
`tmp_order_path[0]`) requires the first order's post-fee target to be
re-solved to 50, but `Path.generate_orders` re-solves it against
`orders[0].get_source_amount()` — the first order's *own* original
source amount, 100 — so the returned chain has first-order target 100
while its successor's source amount is 50. -/
theorem generate_orders_reduce_bug :
    (generateOrders
        [⟨.BUY, { takerFee := 0, deposit := false, rules := [],
                  bids := [], asks := [⟨1/2, 1000000⟩] }⟩,
         ⟨.SELL, { takerFee := 0, deposit := false, rules := [],
                   bids := [⟨1, 50⟩], asks := [] }⟩]
        100).map (fun orders => orders.map (fun o => (o.getTargetAmount true, o.getSourceAmount)))
      = some [(100, 50), (50, 50)] ∧ (100 : ℚ) ≠ 50 := by
  refine ⟨?_, ?_⟩ <;> with_unfolding_all decide

lemma admRun_inv (cfg : AdmissionConfig) (bound : ℤ)
    (hscan : ∀ (s : AdmState) (now : ℚ),
      canScan cfg s.currentSequences now s.lastSequenceStarted = true →
      s.currentSequences + 1 ≤ bound) :
    ∀ (steps : List AdmStep) (s : AdmState), s.currentSequences ≤ bound →
      (steps.foldl (admStep cfg) s).currentSequences ≤ bound := by
  intro steps
  induction steps with
  | nil => intro s h; exact h
  | cons st rest ih =>
    intro s h
    simp only [List.foldl_cons]
    apply ih
    cases st with
    | scan now ok =>
      simp only [admStep]
      split
      next hcond =>
        exact hscan s now (Bool.and_eq_true _ _ ▸ hcond).1
      next => exact h
    | complete =>
      simp only [admStep]
      omega

/-- C6: starting from `currentSequences = 0`, under any interleaving of
scanner admission steps and sequence-completing order-update callbacks:
with `multipleSequences = false`, `currentSequences` never exceeds 1;
with `multipleSequences = true` and `maximumSequences > 0`, it never
exceeds `maximumSequences`. -/
theorem admission_bound (cfg : AdmissionConfig) (steps : List AdmStep) :
    (cfg.multipleSequences = false → (admRun cfg steps).currentSequences ≤ 1) ∧
    (cfg.multipleSequences = true → 0 < cfg.maximumSequences →
      (admRun cfg steps).currentSequences ≤ cfg.maximumSequences) := by
  constructor
  · intro hms
    refine admRun_inv cfg 1 ?_ steps _ (by decide)
    intro s now hc
    simp [canScan, hms] at hc
    omega
  · intro hms hmax
    refine admRun_inv cfg cfg.maximumSequences ?_ steps _ (le_of_lt hmax)
    intro s now hc
    simp [canScan, hms] at hc
    rcases hc.2 with h0 | hlt
    · omega
    · omega

/-- C6 witness: with `multipleSequences = false` the counter stays at
most 1 over a concrete run, and with `multipleSequences = true`,
`maximumSequences = 3` it stays at most 3. -/
theorem admission_bound_witness :
    (admRun ⟨false, 0, 0⟩ [.scan 1 true, .complete, .scan 2 true]).currentSequences ≤ 1 ∧
    (admRun ⟨true, 3, 0⟩ [.scan 1 true, .scan 2 true]).currentSequences ≤ 3 :=
  ⟨(admission_bound ⟨false, 0, 0⟩ [.scan 1 true, .complete, .scan 2 true]).1 rfl,
   (admission_bound ⟨true, 3, 0⟩ [.scan 1 true, .scan 2 true]).2 rfl (by decide)⟩

lemma splitDepositsGo_no_deposit {α : Type} (isDep : α → Bool) :
    ∀ (l tmp : List α), (∀ o ∈ tmp, isDep o = false) →
      ∀ chain ∈ splitDepositsGo isDep l tmp, ∀ o ∈ chain, isDep o = false := by
  intro l
  induction l with
  | nil =>
    intro tmp htmp chain hchain o ho
    simp only [splitDepositsGo, List.mem_singleton] at hchain
    subst hchain
    exact htmp o ho
  | cons x rest ih =>
    intro tmp htmp chain hchain o ho
    simp only [splitDepositsGo] at hchain
    by_cases hx : isDep x
    · rw [if_pos hx] at hchain
      cases rest with
      | nil =>
        simp only [List.mem_singleton] at hchain
        subst hchain
        exact htmp o ho
      | cons y ys =>
        rcases List.mem_cons.mp hchain with rfl | hchain
        · exact htmp o ho
        · exact ih [] (by simp) chain hchain o ho
    · rw [if_neg hx] at hchain
      refine ih (tmp ++ [x]) ?_ chain hchain o ho
      intro z hz
      rcases List.mem_append.mp hz with hz | hz
      · exact htmp z hz
      · rw [List.mem_singleton.mp hz]
        exact Bool.not_eq_true _ ▸ hx

lemma splitDepositsGo_flatten {α : Type} (isDep : α → Bool) :
    ∀ (l tmp : List α),
      (splitDepositsGo isDep l tmp).flatten = tmp ++ l.filter (fun o => !isDep o) := by
  intro l
  induction l with
  | nil => intro tmp; simp [splitDepositsGo]
  | cons x rest ih =>
    intro tmp
    simp only [splitDepositsGo]
    by_cases hx : isDep x
    · rw [if_pos hx]
      cases rest with
      | nil => simp [List.filter_cons, hx]
      | cons y ys =>
        simp only [List.flatten_cons, ih [], List.filter_cons, hx]
        simp
    · rw [if_neg hx]
      rw [ih (tmp ++ [x])]
      simp [List.filter_cons, hx]

lemma splitExecGo_flatten {α : Type} (canExec : α → Bool) :
    ∀ (l tmp : List α), (splitExecGo canExec l tmp).flatten = tmp ++ l := by
  intro l
  induction l with
  | nil => intro tmp; simp [splitExecGo]
  | cons x rest ih =>
    intro tmp
    simp only [splitExecGo]
    by_cases hx : canExec x
    · rw [if_pos hx]
      cases tmp with
      | nil => simp [ih]
      | cons t ts => simp [ih]
    · rw [if_neg hx]
      rw [ih (tmp ++ [x])]
      simp

/-- C7 (amended): `parallelize_orders` *drops* every deposit order: no
chain of the returned partition contains a deposit, so a deposit never
begins a chain; deposits act only as separators.  The non-deposit orders
are all kept, in their input order: the concatenation of the returned
chains is exactly the input with the deposit orders erased (so the
non-deposit orders that followed a deposit appear in chains after the
point where the deposit was dropped). -/
theorem parallelize_orders_spec {α : Type} (isDep canExec : α → Bool) (orders : List α) :
    (∀ chain ∈ parallelizeOrders isDep canExec orders, ∀ o ∈ chain, isDep o = false) ∧
    (parallelizeOrders isDep canExec orders).flatten = orders.filter (fun o => !isDep o) := by
  constructor
  · intro chain hchain o ho
    unfold parallelizeOrders at hchain
    rw [List.mem_flatMap] at hchain
    obtain ⟨c1, hc1, hchain⟩ := hchain
    have hmem : o ∈ (splitExecGo canExec c1 []).flatten := List.mem_flatten.mpr ⟨chain, hchain, ho⟩
    rw [splitExecGo_flatten] at hmem
    simp only [List.nil_append] at hmem
    cases orders with
    | nil => simp [splitDeposits] at hc1
    | cons x rest =>
      exact splitDepositsGo_no_deposit isDep (x :: rest) [] (by simp) c1 hc1 o hmem
  · unfold parallelizeOrders
    have : ∀ (cs : List (List α)),
        (cs.flatMap (fun chain => splitExecGo canExec chain [])).flatten = cs.flatten := by
      intro cs
      induction cs with
      | nil => simp
      | cons c cs ihc =>
        simp only [List.flatMap_cons, List.flatten_append, ihc, splitExecGo_flatten,
          List.nil_append, List.flatten_cons]
    rw [this]
    cases orders with
    | nil => simp [splitDeposits]
    | cons x rest =>
      rw [splitDeposits, splitDepositsGo_flatten]
      simp

/-- C7 witness: on the concrete input `[0, 1, 2]` where order 1 is the
only deposit and nothing is yet executable, no chain contains the
deposit and the chains concatenate to `[0, 2]`. -/
theorem parallelize_orders_spec_witness :
    ((0 : ℕ) == 1) = false ∧
    (parallelizeOrders (fun n => n == 1) (fun _ => false) [0, 1, 2]).flatten =
      [0, 1, 2].filter (fun o => !(o == 1)) :=
  ⟨(parallelize_orders_spec (fun n => n == 1) (fun _ => false) [0, 1, 2]).1
      [0] (by decide) 0 (by decide),
   (parallelize_orders_spec (fun n => n == 1) (fun _ => false) [0, 1, 2]).2⟩

/-- C7 counterexample: with input `[0, 1, 2]` where order 1 is a deposit
order, the partition is `[[0], [2]]`: the deposit order 1 is not the
first element of any chain (it is in no chain at all), refuting the
claim that every deposit order begins a new chain. -/
theorem parallelize_orders_cex :
    parallelizeOrders (fun n => n == 1) (fun _ => false) [0, 1, 2] = [[0], [2]] ∧
    ¬ ∃ chain ∈ parallelizeOrders (fun n => n == 1) (fun _ => false) [0, 1, 2],
        chain.head? = some 1 := by
  refine ⟨?_, ?_⟩ <;> decide

lemma lookupEdges_insert_self : ∀ (g : AdjMap) (v : VId) (e : AdjEdge),
    lookupEdges (insertEdge g v e) v = lookupEdges g v ++ [e] := by
  intro g
  induction g with
  | nil => intro v e; simp [insertEdge, lookupEdges]
  | cons p rest ih =>
    intro v e
    obtain ⟨u, es⟩ := p
    simp only [insertEdge]
    by_cases huv : u = v
    · subst huv
      simp [lookupEdges]
    · rw [if_neg huv]
      simp only [lookupEdges, if_neg huv]
      exact ih v e

lemma lookupEdges_insert_other : ∀ (g : AdjMap) (v w : VId) (e : AdjEdge), w ≠ v →
    lookupEdges (insertEdge g v e) w = lookupEdges g w := by
  intro g
  induction g with
  | nil =>
    intro v w e hne
    have hvw : v ≠ w := fun h => hne h.symm
    simp [insertEdge, lookupEdges, hvw]
  | cons p rest ih =>
    intro v w e hne
    obtain ⟨u, es⟩ := p
    simp only [insertEdge]
    by_cases huv : u = v
    · subst huv
      rw [if_pos rfl]
      have huw : ¬ u = w := fun h => hne h.symm
      simp only [lookupEdges, if_neg huw]
    · rw [if_neg huv]
      simp only [lookupEdges]
      by_cases huw : u = w
      · rw [if_pos huw, if_pos huw]
      · rw [if_neg huw, if_neg huw]
        exact ih v w e hne

lemma find?_append_of_not_any {α : Type} (p : α → Bool) :
    ∀ (l : List α) (e : α), l.any p = false → (l ++ [e]).find? p = if p e then some e else none := by
  intro l
  induction l with
  | nil =>
    intro e _
    cases hpe : p e <;> simp [List.find?, hpe]
  | cons x xs ih =>
    intro e hany
    simp only [List.any_cons, Bool.or_eq_false_iff] at hany
    simp only [List.cons_append, List.find?_cons, hany.1]
    exact ih e hany.2

/-- C8 (amended): after `add_deposit(currency, target_exchange)` on a
source exchange whose vertex had no entry yet for the currency's code,
the source vertex holds an adjacency entry to the target vertex over the
new deposit market — and, unless the target vertex already had an entry
under that code, `add_neighbour_currency`'s mutual registration *also*
installs the reverse entry from the target vertex back to the source
vertex over the same deposit market (deposit edges are installed in both
directions, not directionally); a pre-existing entry on the target is
left unchanged. -/
theorem add_deposit_spec (g : AdjMap) (se te c : ℕ) (hne : se ≠ te)
    (hsrc : hasEdge g ⟨se, c⟩ c = false) :
    findEdge (addDeposit g se te c) ⟨se, c⟩ c = some ⟨c, ⟨te, c⟩, true⟩ ∧
    (hasEdge g ⟨te, c⟩ c = false →
      findEdge (addDeposit g se te c) ⟨te, c⟩ c = some ⟨c, ⟨se, c⟩, true⟩) ∧
    (hasEdge g ⟨te, c⟩ c = true →
      findEdge (addDeposit g se te c) ⟨te, c⟩ c = findEdge g ⟨te, c⟩ c) := by
  have hvne : (⟨se, c⟩ : VId) ≠ ⟨te, c⟩ := by
    intro h
    exact hne (congrArg VId.exchange h)
  have hstep1 : addDeposit g se te c =
      addNeighbourFuel true 2 (insertEdge g ⟨se, c⟩ ⟨c, ⟨te, c⟩, true⟩) ⟨te, c⟩ ⟨se, c⟩ := by
    unfold addDeposit addNeighbour
    simp only [addNeighbourFuel]
    rw [if_neg]
    simp [hsrc]
  have htgt1 : hasEdge (insertEdge g ⟨se, c⟩ ⟨c, ⟨te, c⟩, true⟩) ⟨te, c⟩ c = hasEdge g ⟨te, c⟩ c := by
    unfold hasEdge
    rw [lookupEdges_insert_other g _ _ _ hvne.symm]
  cases htgt : hasEdge g ⟨te, c⟩ c with
  | true =>
    have hres : addDeposit g se te c = insertEdge g ⟨se, c⟩ ⟨c, ⟨te, c⟩, true⟩ := by
      rw [hstep1]
      simp only [addNeighbourFuel]
      rw [if_pos (htgt1.trans htgt)]
    refine ⟨?_, ?_, ?_⟩
    · rw [hres]
      unfold findEdge
      rw [lookupEdges_insert_self]
      rw [find?_append_of_not_any _ _ _ (by unfold hasEdge at hsrc; exact hsrc)]
      simp
    · intro h
      exact Bool.noConfusion h
    · intro _
      rw [hres]
      unfold findEdge
      rw [lookupEdges_insert_other g _ _ _ hvne.symm]
  | false =>
    have hsrc2 : hasEdge (insertEdge (insertEdge g ⟨se, c⟩ ⟨c, ⟨te, c⟩, true⟩) ⟨te, c⟩
        ⟨c, ⟨se, c⟩, true⟩) ⟨se, c⟩ c = true := by
      unfold hasEdge
      rw [lookupEdges_insert_other _ _ _ _ hvne, lookupEdges_insert_self]
      simp
    have hres : addDeposit g se te c =
        insertEdge (insertEdge g ⟨se, c⟩ ⟨c, ⟨te, c⟩, true⟩) ⟨te, c⟩ ⟨c, ⟨se, c⟩, true⟩ := by
      rw [hstep1]
      simp only [addNeighbourFuel]
      rw [if_neg (by rw [htgt1, htgt]; exact Bool.noConfusion)]
      rw [if_pos hsrc2]
    refine ⟨?_, ?_, ?_⟩
    · rw [hres]
      unfold findEdge
      rw [lookupEdges_insert_other _ _ _ _ hvne, lookupEdges_insert_self]
      rw [find?_append_of_not_any _ _ _ (by unfold hasEdge at hsrc; exact hsrc)]
      simp
    · intro _
      rw [hres]
      unfold findEdge
      rw [lookupEdges_insert_self]
      rw [find?_append_of_not_any _ _ _ ?_]
      · simp
      · have := htgt1.trans htgt
        unfold hasEdge at this
        exact this
    · intro h
      exact Bool.noConfusion h

/-- C8 witness: `add_deposit` for currency code 7 from exchange 0 to
exchange 1 on the empty graph installs the forward entry and — the
target having no prior entry — the mirror entry as well. -/
theorem add_deposit_spec_witness :
    findEdge (addDeposit [] 0 1 7) ⟨0, 7⟩ 7 = some ⟨7, ⟨1, 7⟩, true⟩ ∧
    findEdge (addDeposit [] 0 1 7) ⟨1, 7⟩ 7 = some ⟨7, ⟨0, 7⟩, true⟩ :=
  ⟨(add_deposit_spec [] 0 1 7 (by decide) (by decide)).1,
   (add_deposit_spec [] 0 1 7 (by decide) (by decide)).2.1 (by decide)⟩

/-- C8 counterexample: after `add_deposit(code 7, exchange 0 → exchange
1)` on the empty graph, the *target* exchange's vertex holds an
adjacency entry leading back to the source vertex over that deposit
market, refuting the claim that the target vertex gains no such
entry. -/
theorem add_deposit_cex :
    findEdge (addDeposit [] 0 1 7) ⟨1, 7⟩ 7 = some ⟨7, ⟨0, 7⟩, true⟩ := by decide

lemma chainAdjB_snoc (g : PGraph) : ∀ (vs : List VId) (u t : VId),
    chainAdjB g false u vs = true →
    ((g.adj (vs.getLastD u)).any (fun e => e.target == t)) = true →
    chainAdjB g false u (vs ++ [t]) = true := by
  intro vs
  induction vs with
  | nil =>
    intro u t _ hadj
    simpa [chainAdjB] using hadj
  | cons v vs ih =>
    intro u t h hadj
    simp only [chainAdjB, Bool.and_eq_true] at h
    simp only [List.cons_append, chainAdjB, Bool.and_eq_true]
    refine ⟨h.1, ?_⟩
    refine ih v t h.2 ?_
    rw [List.getLastD_cons] at hadj
    exact hadj

lemma pathsGo_sound (g : PGraph) (S : VId) :
    ∀ (fuel : ℕ) (cur : VId) (path : List VId),
      path.head? = some S →
      path.tail.getLastD S = cur →
      path.dropLast.Nodup →
      (path.Nodup ∨ S.code = cur.code) →
      chainAdjB g false S path.tail = true →
      ∀ p ∈ pathsGo g S fuel cur path,
        p.head? = some S ∧ 2 ≤ p.length ∧ (p.getLastD S).code = S.code ∧
        p.dropLast.Nodup ∧ chainAdjB g false S p.tail = true := by
  intro fuel
  induction fuel with
  | zero =>
    intro cur path _ _ _ _ _ p hp
    simp [pathsGo] at hp
  | succ f ih =>
    intro cur path hhead hlast hnd hA hchain p hp
    obtain ⟨tail, rfl⟩ : ∃ tail, path = S :: tail := by
      cases path with
      | nil => exact absurd hhead (by simp)
      | cons a tail =>
        have ha : a = S := by simpa using hhead
        exact ⟨tail, by rw [ha]⟩
    simp only [pathsGo] at hp
    split at hp
    next hrec =>
      simp only [List.mem_singleton] at hp
      subst hp
      refine ⟨rfl, hrec.1, ?_, hnd, hchain⟩
      rw [List.getLastD_cons]
      rw [show tail.getLastD S = cur from hlast]
      exact hrec.2.symm
    next hrec =>
      rw [List.mem_flatMap] at hp
      obtain ⟨e, he, hp⟩ := hp
      split at hp
      next => simp at hp
      next hdep =>
        split at hp
        next => simp at hp
        next hmem =>
          have hnodup : (S :: tail).Nodup := by
            rcases hA with h | h
            · exact h
            · cases tail with
              | nil => simp
              | cons b tl2 =>
                exact absurd (⟨by simp, h⟩ : 1 < (S :: b :: tl2).length ∧ S.code = cur.code) hrec
          have hchild :
              ∀ q ∈ pathsGo g S f e.target ((S :: tail) ++ [e.target]),
                q.head? = some S ∧ 2 ≤ q.length ∧ (q.getLastD S).code = S.code ∧
                q.dropLast.Nodup ∧ chainAdjB g false S q.tail = true := by
            refine ih e.target ((S :: tail) ++ [e.target]) rfl ?_ ?_ ?_ ?_
            · show (tail ++ [e.target]).getLastD S = e.target
              exact List.getLastD_concat S e.target tail
            · show ((S :: tail) ++ [e.target]).dropLast.Nodup
              rw [List.dropLast_concat]
              exact hnodup
            · by_cases ht : e.target ∈ (S :: tail)
              · have hh : (S :: tail).head? = some e.target := by
                  by_contra hne
                  exact hmem ⟨ht, hne⟩
                right
                have : S = e.target := by simpa using hh
                rw [← this]
              · left
                exact List.Nodup.append hnodup (List.nodup_singleton _)
                  (List.disjoint_singleton.mpr ht)
            · show chainAdjB g false S (tail ++ [e.target]) = true
              refine chainAdjB_snoc g tail S e.target hchain ?_
              rw [show tail.getLastD S = cur from hlast]
              rw [List.any_eq_true]
              exact ⟨e, he, by simp⟩
          exact hchild p hp

lemma pathsGo_complete (g : PGraph) (S : VId) :
    ∀ (rest : List VId) (fuel : ℕ) (cur : VId) (path : List VId),
      path.head? = some S →
      path.tail.getLastD S = cur →
      (path.length = 1 ∨ cur.code ≠ S.code) →
      (∀ v ∈ rest, v ∉ path ∧ v.code ≠ S.code) →
      rest.Nodup →
      chainAdjB g (decide (path.length = 1)) cur (rest ++ [S]) = true →
      rest.length + 2 ≤ fuel →
      path ++ (rest ++ [S]) ∈ pathsGo g S fuel cur path := by
  intro rest
  induction rest with
  | nil =>
    intro fuel cur path hhead hlast hnorec _ _ hchain hfuel
    obtain ⟨f1, rfl⟩ : ∃ f1, fuel = f1 + 1 := ⟨fuel - 1, by omega⟩
    obtain ⟨f2, rfl⟩ : ∃ f2, f1 = f2 + 1 := ⟨f1 - 1, by omega⟩
    obtain ⟨tail, rfl⟩ : ∃ tail, path = S :: tail := by
      cases path with
      | nil => exact absurd hhead (by simp)
      | cons a tail =>
        have ha : a = S := by simpa using hhead
        exact ⟨tail, by rw [ha]⟩
    simp only [List.nil_append, chainAdjB, Bool.and_eq_true, List.any_eq_true] at hchain
    obtain ⟨⟨e, he, hcond⟩, -⟩ := hchain
    obtain ⟨htgt0, hcond2⟩ := hcond
    have htgt : e.target = S := beq_iff_eq.mp htgt0
    have hnorec' : ¬(1 < (S :: tail).length ∧ S.code = cur.code) := by
      intro hx
      rcases hnorec with hlen | hcode
      · rw [hlen] at hx
        exact absurd hx.1 (lt_irrefl 1)
      · exact hcode hx.2.symm
    have hskip1 : ¬((S :: tail).length = 1 ∧ e.isDeposit = true) := by
      intro hx
      simp [hx.1, hx.2] at hcond2
    have hskip2 : ¬(e.target ∈ (S :: tail) ∧ (S :: tail).head? ≠ some e.target) := by
      intro hx
      rw [htgt] at hx
      exact hx.2 rfl
    simp only [pathsGo]
    rw [if_neg hnorec']
    rw [List.mem_flatMap]
    refine ⟨e, he, ?_⟩
    rw [if_neg hskip1, if_neg hskip2, htgt]
    simp only [pathsGo]
    have hcondpos : 1 < ((S :: tail) ++ [S]).length ∧ True := ⟨by simp, trivial⟩
    rw [if_pos hcondpos]
    simp
  | cons w rest ih =>
    intro fuel cur path hhead hlast hnorec hrest hnd hchain hfuel
    obtain ⟨f1, rfl⟩ : ∃ f1, fuel = f1 + 1 := ⟨fuel - 1, by omega⟩
    obtain ⟨tail, rfl⟩ : ∃ tail, path = S :: tail := by
      cases path with
      | nil => exact absurd hhead (by simp)
      | cons a tail =>
        have ha : a = S := by simpa using hhead
        exact ⟨tail, by rw [ha]⟩
    simp only [List.cons_append, chainAdjB, Bool.and_eq_true, List.any_eq_true] at hchain
    obtain ⟨⟨e, he, hcond⟩, hchain2⟩ := hchain
    obtain ⟨htgt0, hcond2⟩ := hcond
    have htgt : e.target = w := beq_iff_eq.mp htgt0
    obtain ⟨hwnd, hndrest⟩ := List.nodup_cons.mp hnd
    have hnorec' : ¬(1 < (S :: tail).length ∧ S.code = cur.code) := by
      intro hx
      rcases hnorec with hlen | hcode
      · rw [hlen] at hx
        exact absurd hx.1 (lt_irrefl 1)
      · exact hcode hx.2.symm
    have hskip1 : ¬((S :: tail).length = 1 ∧ e.isDeposit = true) := by
      intro hx
      simp [hx.1, hx.2] at hcond2
    have hskip2 : ¬(e.target ∈ (S :: tail) ∧ (S :: tail).head? ≠ some e.target) := by
      intro hx
      rw [htgt] at hx
      exact (hrest w (by simp)).1 hx.1
    simp only [pathsGo]
    rw [if_neg hnorec']
    rw [List.mem_flatMap]
    refine ⟨e, he, ?_⟩
    rw [if_neg hskip1, if_neg hskip2, htgt]
    have hblen : decide ((((S :: tail) ++ [w]).length) = 1) = false := by
      simp
    have hstep := ih f1 w ((S :: tail) ++ [w]) rfl
      (List.getLastD_concat S w tail)
      (Or.inr (hrest w (by simp)).2)
      (by
        intro v hv
        refine ⟨?_, (hrest v (by simp [hv])).2⟩
        intro hvmem
        rcases List.mem_append.mp hvmem with hvp | hvw
        · exact (hrest v (by simp [hv])).1 hvp
        · rw [List.mem_singleton.mp hvw] at hv
          exact hwnd hv)
      hndrest
      (by rw [hblen]; exact hchain2)
      (by simp at hfuel ⊢; omega)
    simpa [List.append_assoc] using hstep

/-- C2 (amended): `generate_all_paths(S, max_depth)` returns paths, each
starting at `S` with at least one edge, whose vertices before the final
one are pairwise distinct (so the intermediate vertices are distinct and
different from `S`), whose consecutive vertices are joined by graph
edges, and whose *last* vertex has the same currency code as `S` — not
necessarily the vertex `S` itself.  Conversely, every simple cycle
`S, v₁, …, vₖ₋₁, S` with `k ≤ max_depth − 1` edges whose intermediate
vertices differ from `S` and do not share `S`'s currency code is
returned, except those whose first move from `S` traverses a deposit
edge.  (The original claim's `k ≤ max_depth` fails: the validity check
runs after the depth guard, so cycles with exactly `max_depth` edges are
never recorded.) -/
theorem generate_all_paths_spec (g : PGraph) (S : VId) (d : ℕ) :
    (∀ p ∈ generateAllPaths g S d,
      p.head? = some S ∧ 2 ≤ p.length ∧ (p.getLastD S).code = S.code ∧
      p.dropLast.Nodup ∧ chainAdjB g false S p.tail = true) ∧
    (∀ mids : List VId, mids.Nodup → (∀ v ∈ mids, v ≠ S ∧ v.code ≠ S.code) →
      chainAdjB g true S (mids ++ [S]) = true → mids.length + 2 ≤ d →
      S :: (mids ++ [S]) ∈ generateAllPaths g S d) := by
  constructor
  · intro p hp
    exact pathsGo_sound g S d S [S] rfl rfl (by simp) (Or.inl (by simp)) rfl p hp
  · intro mids hnd hmids hchain hd
    have hres := pathsGo_complete g S mids d S [S] rfl rfl (Or.inl rfl)
      (fun v hv => ⟨by simp only [List.mem_singleton]; exact (hmids v hv).1,
        (hmids v hv).2⟩)
      hnd hchain hd
    simpa [generateAllPaths] using hres

/-- C2 witness: on the concrete triangle graph, the 3-edge cycle
`A, B, C, A` is returned when `max_depth = 4`, and the returned path
`A, B, A` (at `max_depth = 3`) has its first and intermediate vertices
pairwise distinct. -/
theorem generate_all_paths_spec_witness :
    ([⟨0, 0⟩, ⟨0, 1⟩, ⟨0, 2⟩, ⟨0, 0⟩] : List VId) ∈ generateAllPaths triGraph ⟨0, 0⟩ 4 ∧
    ([⟨0, 0⟩, ⟨0, 1⟩, ⟨0, 0⟩] : List VId).dropLast.Nodup :=
  ⟨by
    have h := (generate_all_paths_spec triGraph ⟨0, 0⟩ 4).2
      [⟨0, 1⟩, ⟨0, 2⟩] (by decide) (by decide) (by decide) (by decide)
    simpa using h,
   ((generate_all_paths_spec triGraph ⟨0, 0⟩ 3).1
      [⟨0, 0⟩, ⟨0, 1⟩, ⟨0, 0⟩] (by decide)).2.2.2.1⟩

/-- C2 counterexample: in the triangle graph, `A, B, C, A` is a simple
cycle of 3 ≤ max_depth = 3 edges whose first move is not a deposit, yet
`generate_all_paths(A, 3)` does not return it (the call that would
record it enters at depth 4 and is cut off before the validity check),
refuting "every simple cycle with k ≤ max_depth edges is returned except
those whose first move from S traverses a deposit edge". -/
theorem generate_all_paths_cex :
    chainAdjB triGraph true ⟨0, 0⟩ [⟨0, 1⟩, ⟨0, 2⟩, ⟨0, 0⟩] = true ∧
    ([⟨0, 1⟩, ⟨0, 2⟩] : List VId).Nodup ∧
    (⟨0, 0⟩ : VId) ∉ ([⟨0, 1⟩, ⟨0, 2⟩] : List VId) ∧
    ([⟨0, 0⟩, ⟨0, 1⟩, ⟨0, 2⟩, ⟨0, 0⟩] : List VId) ∉ generateAllPaths triGraph ⟨0, 0⟩ 3 := by
  refine ⟨?_, ?_, ?_, ?_⟩ <;> decide
